import Mathlib

/-!
Verification of the IBC balance tracker (`src/index.ts`).

The development shallowly embeds the TypeScript source: the chain registry and
channel table, the denom-trace calculator `getDenom` (SHA-256 over the UTF-8
bytes of the trace string), the address-translation wrapper, and the DFS
balance traversal `trackBalances`.  Machine words are modelled as `Nat` with
explicit reduction modulo 2^32; JavaScript numbers are modelled as an extended
rational type (`JSNum`) covering NaN and the infinities, with the idealisation
that decimal-to-double rounding is exact rational arithmetic.
-/

/- ## SHA-256 over byte lists (bytes are `Nat` values < 256) -/

/-- Word size modulus for 32-bit arithmetic. -/
def pow32 : Nat := 4294967296

/-- Right rotation of a 32-bit word. -/
def rotr (n x : Nat) : Nat :=
  let y := x % pow32
  ((y >>> n) ||| (y <<< (32 - n))) % pow32

/-- Bitwise complement within 32 bits. -/
def compl32 (x : Nat) : Nat := Nat.xor (x % pow32) (pow32 - 1)

/-- SHA-256 choice function. -/
def shaCh (x y z : Nat) : Nat := Nat.xor (Nat.land x y) (Nat.land (compl32 x) z)

/-- SHA-256 majority function. -/
def shaMaj (x y z : Nat) : Nat :=
  Nat.xor (Nat.xor (Nat.land x y) (Nat.land x z)) (Nat.land y z)

/-- SHA-256 big sigma 0. -/
def bigSigma0 (x : Nat) : Nat := Nat.xor (Nat.xor (rotr 2 x) (rotr 13 x)) (rotr 22 x)

/-- SHA-256 big sigma 1. -/
def bigSigma1 (x : Nat) : Nat := Nat.xor (Nat.xor (rotr 6 x) (rotr 11 x)) (rotr 25 x)

/-- SHA-256 small sigma 0. -/
def smallSigma0 (x : Nat) : Nat :=
  Nat.xor (Nat.xor (rotr 7 x) (rotr 18 x)) ((x % pow32) >>> 3)

/-- SHA-256 small sigma 1. -/
def smallSigma1 (x : Nat) : Nat :=
  Nat.xor (Nat.xor (rotr 17 x) (rotr 19 x)) ((x % pow32) >>> 10)

/-- The 64 SHA-256 round constants. -/
def K64 : List Nat :=
  [1116352408, 1899447441, 3049323471, 3921009573, 961987163,
   1508970993, 2453635748, 2870763221, 3624381080, 310598401,
   607225278, 1426881987, 1925078388, 2162078206, 2614888103,
   3248222580, 3835390401, 4022224774, 264347078, 604807628,
   770255983, 1249150122, 1555081692, 1996064986, 2554220882,
   2821834349, 2952996808, 3210313671, 3336571891, 3584528711,
   113926993, 338241895, 666307205, 773529912, 1294757372,
   1396182291, 1695183700, 1986661051, 2177026350, 2456956037,
   2730485921, 2820302411, 3259730800, 3345764771, 3516065817,
   3600352804, 4094571909, 275423344, 430227734, 506948616,
   659060556, 883997877, 958139571, 1322822218, 1537002063,
   1747873779, 1955562222, 2024104815, 2227730452, 2361852424,
   2428436474, 2756734187, 3204031479, 3329325298]

/-- The eight SHA-256 working variables. -/
structure Hash8 where
  a : Nat
  b : Nat
  c : Nat
  d : Nat
  e : Nat
  f : Nat
  g : Nat
  h : Nat
deriving Repr, DecidableEq

/-- The SHA-256 initial hash value. -/
def initH : Hash8 :=
  ⟨1779033703, 3144134277, 1013904242, 2773480762,
   1359893119, 2600822924, 528734635, 1541459225⟩

/-- Big-endian byte decomposition of a value into `count` bytes. -/
def beBytes (count : Nat) (v : Nat) : List Nat :=
  ((List.range count).reverse).map (fun i => (v >>> (8 * i)) % 256)

/-- SHA-256 padding: append 0x80, zero fill to 56 mod 64, then the bit length
as eight big-endian bytes. -/
def padMessage (msg : List Nat) : List Nat :=
  let L := msg.length
  let k := (56 + 64 - ((L + 1) % 64)) % 64
  msg ++ [0x80] ++ List.replicate k 0 ++ beBytes 8 (8 * L)

/-- Pack bytes into big-endian 32-bit words, four bytes at a time. -/
def toWords : List Nat → List Nat
  | a :: b :: c :: d :: rest =>
      (a * 16777216 + b * 65536 + c * 256 + d) :: toWords rest
  | _ => []

/-- Extend the sixteen block words by `n` further schedule words. -/
def extendW (ws : List Nat) : Nat → List Nat
  | 0 => ws
  | n + 1 =>
      let i := ws.length
      let next := (smallSigma1 (ws.getD (i - 2) 0) + ws.getD (i - 7) 0 +
                   smallSigma0 (ws.getD (i - 15) 0) + ws.getD (i - 16) 0) % pow32
      extendW (ws ++ [next]) n

/-- One SHA-256 compression round. -/
def roundStep (st : Hash8) (k w : Nat) : Hash8 :=
  let t1 := (st.h + bigSigma1 st.e + shaCh st.e st.f st.g + k + w) % pow32
  let t2 := (bigSigma0 st.a + shaMaj st.a st.b st.c) % pow32
  ⟨(t1 + t2) % pow32, st.a, st.b, st.c, (st.d + t1) % pow32, st.e, st.f, st.g⟩

/-- Compress one 64-byte block into the running hash state. -/
def compressBlock (hs : Hash8) (block : List Nat) : Hash8 :=
  let w := extendW (toWords block) 48
  let st := (K64.zip w).foldl (fun s p => roundStep s p.1 p.2) hs
  ⟨(hs.a + st.a) % pow32, (hs.b + st.b) % pow32, (hs.c + st.c) % pow32,
   (hs.d + st.d) % pow32, (hs.e + st.e) % pow32, (hs.f + st.f) % pow32,
   (hs.g + st.g) % pow32, (hs.h + st.h) % pow32⟩

/-- Split a byte list into blocks of 64. -/
def toBlocks : List Nat → List (List Nat)
  | [] => []
  | x :: xs => ((x :: xs).take 64) :: toBlocks ((x :: xs).drop 64)
termination_by l => l.length
decreasing_by
  simp only [List.length_drop, List.length_cons]
  omega

/-- SHA-256 digest of a byte list, as 32 bytes. -/
def sha256Bytes (msg : List Nat) : List Nat :=
  let fin := (toBlocks (padMessage msg)).foldl compressBlock initH
  ([fin.a, fin.b, fin.c, fin.d, fin.e, fin.f, fin.g, fin.h].map (beBytes 4)).flatten

/- ## UTF-8 encoding and hexadecimal rendering -/

/-- UTF-8 encoding of a single code point. -/
def utf8EncodeNat (n : Nat) : List Nat :=
  if n < 0x80 then [n]
  else if n < 0x800 then [0xC0 + n / 64, 0x80 + n % 64]
  else if n < 0x10000 then
    [0xE0 + n / 4096, 0x80 + (n / 64) % 64, 0x80 + n % 64]
  else
    [0xF0 + n / 262144, 0x80 + (n / 4096) % 64, 0x80 + (n / 64) % 64,
     0x80 + n % 64]

/-- UTF-8 bytes of a string; models `toUtf8` from the encoding library. -/
def utf8Bytes (s : String) : List Nat :=
  (s.data.map (fun c => utf8EncodeNat c.toNat)).flatten

/-- Lowercase hexadecimal digit for a value below 16. -/
def hexDigitL (n : Nat) : Char :=
  if n < 10 then Char.ofNat (48 + n) else Char.ofNat (87 + n)

/-- Uppercase hexadecimal digit for a value below 16. -/
def hexDigitU (n : Nat) : Char :=
  if n < 10 then Char.ofNat (48 + n) else Char.ofNat (55 + n)

/-- Two lowercase hex digits of one byte. -/
def byteHexL (b : Nat) : List Char := [hexDigitL (b / 16 % 16), hexDigitL (b % 16)]

/-- Two uppercase hex digits of one byte. -/
def byteHexU (b : Nat) : List Char := [hexDigitU (b / 16 % 16), hexDigitU (b % 16)]

/-- Lowercase hex string of a byte list; models `toHex`. -/
def lowerHexStr (bs : List Nat) : String := ⟨(bs.map byteHexL).flatten⟩

/-- Uppercase hex string of a byte list. -/
def upperHexStr (bs : List Nat) : String := ⟨(bs.map byteHexU).flatten⟩

/-- Models the `hash` helper of the source: lowercase hex of the SHA-256 of
the UTF-8 bytes of a string. -/
def hashHex (s : String) : String := lowerHexStr (utf8Bytes s |> sha256Bytes)

/-- Models JavaScript `toUpperCase` on ASCII strings. -/
def toUpperCaseStr (s : String) : String := ⟨s.data.map Char.toUpper⟩

/- ## Chain registry (the `chainNameToIdMap` and `IBCMap` constants) -/

/-- The six registered chain names, the keys of `chainNameToIdMap`. -/
inductive ChainName where
  | neutron
  | osmosis
  | terra
  | stargaze
  | cosmoshub
  | stride
deriving DecidableEq, Repr, Fintype

/-- Chain name to chain id, from the source constant of the same name. -/
def chainNameToIdMap : ChainName → String
  | .neutron => "neutron-1"
  | .osmosis => "osmosis-1"
  | .terra => "phoenix-1"
  | .stargaze => "stargaze-1"
  | .cosmoshub => "cosmoshub-4"
  | .stride => "stride-1"

/-- The `chainNames` list (`Object.keys` of `chainNameToIdMap`, in insertion
order). -/
def chainNames : List ChainName :=
  [.neutron, .osmosis, .terra, .stargaze, .cosmoshub, .stride]

/-- The channel table keyed by (destination chain id, source chain id), from
the source constant `IBCMap`.  An absent inner key yields `none`, modelling
the JavaScript `undefined`.  Every chain id in the range of
`chainNameToIdMap` occurs as an outer key, so the outer lookup (which in
JavaScript would throw a TypeError on a missing key) is total here. -/
def IBCMap (dest src : String) : Option String :=
  if dest = "neutron-1" then
    if src = "osmosis-1" then some "channel-10"
    else if src = "phoenix-1" then some "channel-25"
    else if src = "stargaze-1" then some "channel-18"
    else if src = "cosmoshub-4" then some "channel-1"
    else if src = "stride-1" then some "channel-8"
    else none
  else if dest = "osmosis-1" then
    if src = "neutron-1" then some "channel-874"
    else if src = "phoenix-1" then some "channel-251"
    else if src = "stargaze-1" then some "channel-75"
    else if src = "cosmoshub-4" then some "channel-0"
    else if src = "stride-1" then some "channel-326"
    else none
  else if dest = "phoenix-1" then
    if src = "neutron-1" then some "channel-229"
    else if src = "osmosis-1" then some "channel-1"
    else if src = "stargaze-1" then some "channel-324"
    else if src = "cosmoshub-4" then some "channel-0"
    else if src = "stride-1" then some "channel-46"
    else none
  else if dest = "stargaze-1" then
    if src = "neutron-1" then some "channel-191"
    else if src = "osmosis-1" then some "channel-0"
    else if src = "phoenix-1" then some "channel-266"
    else if src = "cosmoshub-4" then some "channel-239"
    else if src = "stride-1" then some "channel-106"
    else none
  else if dest = "cosmoshub-4" then
    if src = "neutron-1" then some "channel-569"
    else if src = "osmosis-1" then some "channel-141"
    else if src = "phoenix-1" then some "channel-339"
    else if src = "stargaze-1" then some "channel-730"
    else if src = "stride-1" then some "channel-391"
    else none
  else if dest = "stride-1" then
    if src = "neutron-1" then some "channel-123"
    else if src = "osmosis-1" then some "channel-5"
    else if src = "phoenix-1" then some "channel-52"
    else if src = "stargaze-1" then some "channel-19"
    else if src = "cosmoshub-4" then some "channel-0"
    else none
  else none

/- ## Denom traces and `getDenom` -/

/-- A denom trace: the wrapped identifier and the hop path string. -/
structure DenomTrace where
  denom : String
  trace : String
deriving DecidableEq, Repr

/-- JavaScript template-literal rendering of a possibly-undefined string:
`undefined` interpolates as the literal text "undefined". -/
def jsTemplate (o : Option String) : String := o.getD "undefined"

/-- Models `getDenom` of the source: look up the channel for the ordered pair
(destination chain id, source chain id), prepend `transfer/<channel>/` to the
trace, and derive the denom as `ibc/` plus the uppercased lowercase-hex
SHA-256 of the new trace.  A missing channel edge interpolates as the string
"undefined", exactly as the JavaScript template literal does. -/
def getDenom (srcChain destChain : ChainName) (baseDenomTrace : DenomTrace) :
    DenomTrace :=
  let srcChainId := chainNameToIdMap srcChain
  let destChainId := chainNameToIdMap destChain
  let channelId := IBCMap destChainId srcChainId
  let trace := "transfer/" ++ jsTemplate channelId ++ "/" ++ baseDenomTrace.trace
  ⟨"ibc/" ++ toUpperCaseStr (hashHex trace), trace⟩

/- ## Uppercase-hex bridging -/

/-- Uppercasing a lowercase hexadecimal digit gives the uppercase digit. -/
theorem toUpper_hexDigit (d : Nat) (h : d < 16) :
    Char.toUpper (hexDigitL d) = hexDigitU d := by
  interval_cases d <;> decide

/-- Uppercasing the two lowercase hex digits of a byte gives the uppercase
digits. -/
theorem byteHex_toUpper (b : Nat) :
    (byteHexL b).map Char.toUpper = byteHexU b := by
  have h1 : b / 16 % 16 < 16 := Nat.mod_lt _ (by norm_num)
  have h2 : b % 16 < 16 := Nat.mod_lt _ (by norm_num)
  simp [byteHexL, byteHexU, toUpper_hexDigit _ h1, toUpper_hexDigit _ h2]

/-- Uppercasing a lowercase hex rendering character by character gives the
uppercase rendering. -/
theorem map_toUpper_flatten (bs : List Nat) :
    ((bs.map byteHexL).flatten).map Char.toUpper = (bs.map byteHexU).flatten := by
  induction bs with
  | nil => rfl
  | cons b tl ih => simp [byteHex_toUpper b, ih]

/-- JavaScript `toUpperCase` of the lowercase hex string is the uppercase hex
string. -/
theorem toUpper_lowerHex (bs : List Nat) :
    toUpperCaseStr (lowerHexStr bs) = upperHexStr bs := by
  unfold toUpperCaseStr lowerHexStr upperHexStr
  exact congrArg String.mk (map_toUpper_flatten bs)

/-- C1: for every pair of registered chains whose edge
`channelTable[destChainId][srcChainId] = c` is registered and every denom
trace `t`, `getDenom` returns exactly the trace `transfer/c/t.trace` and the
denom `ibc/` followed by the uppercase hex SHA-256 of the UTF-8 bytes of that
new trace. -/
theorem C1_getDenom_registered (src dest : ChainName) (t : DenomTrace) (c : String)
    (h : IBCMap (chainNameToIdMap dest) (chainNameToIdMap src) = some c) :
    getDenom src dest t =
      ⟨"ibc/" ++ upperHexStr (sha256Bytes (utf8Bytes ("transfer/" ++ c ++ "/" ++ t.trace))),
       "transfer/" ++ c ++ "/" ++ t.trace⟩ := by
  simp only [getDenom, h, jsTemplate, Option.getD_some, hashHex]
  rw [toUpper_lowerHex]

/-- Witness for C1 at the registered edge from neutron to osmosis. -/
theorem C1_witness :
    IBCMap (chainNameToIdMap .osmosis) (chainNameToIdMap .neutron) = some "channel-874" ∧
    getDenom .neutron .osmosis ⟨"denomX", "denomX"⟩ =
      ⟨"ibc/" ++ upperHexStr (sha256Bytes (utf8Bytes ("transfer/" ++ "channel-874" ++ "/" ++ "denomX"))),
       "transfer/" ++ "channel-874" ++ "/" ++ "denomX"⟩ :=
  ⟨by decide, C1_getDenom_registered .neutron .osmosis ⟨"denomX", "denomX"⟩ "channel-874" (by decide)⟩

/-- C3 counterexample: the pair (neutron, neutron) of registered chains has no
registered edge, yet `getDenom` does not fail: it returns a denom trace in
which the JavaScript `undefined` has been interpolated as text. -/
theorem C3_counterexample :
    IBCMap (chainNameToIdMap .neutron) (chainNameToIdMap .neutron) = none ∧
    (getDenom .neutron .neutron ⟨"untrn", "untrn"⟩).trace =
      "transfer/undefined/untrn" := by
  exact ⟨rfl, rfl⟩

/-- C3 (amended): among registered chains the only missing channel edges are
the self pairs, and there `getDenom` does not signal any error: it returns a
denom trace whose trace is `transfer/undefined/` followed by the input trace,
because the JavaScript template literal renders the undefined lookup as the
text "undefined". -/
theorem C3_missing_edge_no_failure (a b : ChainName) (t : DenomTrace)
    (h : IBCMap (chainNameToIdMap b) (chainNameToIdMap a) = none) :
    a = b ∧ (getDenom a b t).trace = "transfer/undefined/" ++ t.trace := by
  have hab : ∀ x y : ChainName,
      IBCMap (chainNameToIdMap y) (chainNameToIdMap x) = none → x = y := by decide
  refine ⟨hab a b h, ?_⟩
  simp only [getDenom, h, jsTemplate, Option.getD_none]
  have : ("transfer/" ++ "undefined" ++ "/" : String) = "transfer/undefined/" := rfl
  rw [this]

/-- Witness for the amended C3 at the self pair on neutron. -/
theorem C3_witness :
    IBCMap (chainNameToIdMap .neutron) (chainNameToIdMap .neutron) = none ∧
    (ChainName.neutron = ChainName.neutron ∧
     (getDenom .neutron .neutron ⟨"uatom", "uatom"⟩).trace =
       "transfer/undefined/" ++ "uatom") :=
  ⟨rfl, C3_missing_edge_no_failure .neutron .neutron ⟨"uatom", "uatom"⟩ rfl⟩

/-- C9: every ordered pair of distinct registered chains has a defined channel
table entry `IBCMap[destination][source]`: the registry is a complete directed
graph over the six chains. -/
theorem C9_complete_graph (a b : ChainName) (h : a ≠ b) :
    (IBCMap (chainNameToIdMap a) (chainNameToIdMap b)).isSome = true := by
  revert a b
  decide

/-- Witness for C9 at the pair (neutron, osmosis). -/
theorem C9_witness :
    ChainName.neutron ≠ ChainName.osmosis ∧
    (IBCMap (chainNameToIdMap .neutron) (chainNameToIdMap .osmosis)).isSome = true :=
  ⟨by decide, C9_complete_graph .neutron .osmosis (by decide)⟩

/- ## JavaScript numbers and `parseFloat` -/

/-- A JavaScript number as far as this program observes it: NaN, the two
infinities, or a finite value.  Finite values are carried as exact rationals;
the rounding of decimal literals to IEEE doubles is idealised away (it cannot
change the sign, zeroness, or finiteness of any value the program compares). -/
inductive JSNum where
  | nan
  | posInf
  | negInf
  | num (q : Rat)
deriving DecidableEq, Repr

/-- Truthiness of a JavaScript number: NaN and zero are falsy. -/
def jsTruthy : JSNum → Bool
  | .nan => false
  | .num q => decide (q ≠ 0)
  | _ => true

/-- The comparison `x > 0` on JavaScript numbers; false on NaN. -/
def jsGtZero : JSNum → Bool
  | .posInf => true
  | .num q => decide (0 < q)
  | _ => false

/-- Finiteness of a JavaScript number. -/
def jsFinite : JSNum → Bool
  | .num _ => true
  | _ => false

/-- JavaScript StrWhiteSpace characters (the ASCII ones; the program only
ever meets ASCII amounts). -/
def isStrWhiteSpace (c : Char) : Bool :=
  c = ' ' || c = '\t' || c = '\n' || c = '\r' || c = '\x0b' || c = '\x0c'

/-- Numeric value of a decimal digit character. -/
def digVal (c : Char) : Nat := c.toNat - 48

/-- Natural number denoted by a list of decimal digit characters. -/
def natOfDigits (l : List Char) : Nat := l.foldl (fun a c => a * 10 + digVal c) 0

/-- Models the ECMAScript `parseFloat` builtin used at the balance lookup:
skip leading whitespace, read an optional sign, accept a literal `Infinity`,
otherwise read the longest prefix of the form `digits [. digits] [e sign
digits]` (NaN when no digits at all), and return its exact mathematical
value.  Rounding of that value to an IEEE double is idealised away. -/
def parseFloat (s : String) : JSNum :=
  let cs0 := s.data.dropWhile isStrWhiteSpace
  let sgn : Int := match cs0 with
    | '-' :: _ => -1
    | _ => 1
  let cs := match cs0 with
    | '+' :: r => r
    | '-' :: r => r
    | _ => cs0
  if cs.take 8 = "Infinity".data then
    (if sgn = 1 then .posInf else .negInf)
  else
    let ip := cs.takeWhile Char.isDigit
    let cs1 := cs.dropWhile Char.isDigit
    let fp := match cs1 with
      | '.' :: r => r.takeWhile Char.isDigit
      | _ => []
    let cs2 := match cs1 with
      | '.' :: r => r.dropWhile Char.isDigit
      | _ => cs1
    if ip = [] ∧ fp = [] then .nan
    else
      let exp : Int := match cs2 with
        | e :: r =>
          if e = 'e' ∨ e = 'E' then
            let esgn : Int := match r with
              | '-' :: _ => -1
              | _ => 1
            let r2 := match r with
              | '+' :: rr => rr
              | '-' :: rr => rr
              | _ => r
            let ed := r2.takeWhile Char.isDigit
            if ed = [] then 0 else esgn * (natOfDigits ed : Int)
          else 0
        | [] => 0
      let mantNum : Int := (natOfDigits ip * 10 ^ fp.length + natOfDigits fp : Nat)
      .num (if 0 ≤ exp then
          mkRat (sgn * mantNum * ((10 ^ exp.toNat : Nat) : Int)) (10 ^ fp.length)
        else
          mkRat (sgn * mantNum) (10 ^ fp.length * 10 ^ (-exp).toNat))

/- ## Balance snapshots and records -/

/-- A coin of a balance snapshot: denom and amount, both strings as delivered
by the balance endpoint. -/
structure Coin where
  denom : String
  amount : String
deriving DecidableEq, Repr

/-- A balance record as produced by the traversal. -/
structure BalanceRecord where
  denom : String
  originDenom : String
  balance : JSNum
  path : List ChainName
deriving DecidableEq, Repr

/-- The records-by-chain mapping.  A chain key is present (`some`) exactly
when the traversal has initialised its list, mirroring the lazily populated
JavaScript object. -/
def Balances := ChainName → Option (List BalanceRecord)

/-- The initially empty mapping. -/
def emptyBalances : Balances := fun _ => none

/-- Models `if (!balances[c]) balances[c] = []; balances[c].push(r)`. -/
def pushRecord (bal : Balances) (c : ChainName) (r : BalanceRecord) : Balances :=
  fun c2 => if c2 = c then some ((bal c).getD [] ++ [r]) else bal c2

/-- Models `(found?.amount || '0')`: the default applies when no coin matched
or when the matched amount is the empty string (the only falsy string). -/
def amountOrZero : Option Coin → String
  | none => "0"
  | some coin => if coin.amount = "" then "0" else coin.amount

/-- The amount string the traversal parses at one node: the amount of the
first snapshot coin whose denom equals `d`, defaulted to "0". -/
def lookupAmount (env : ChainName → List Coin) (c : ChainName) (d : String) :
    String :=
  amountOrZero ((env c).find? (fun coin => coin.denom == d))

/-- The record guard `balance && balance > 0` of the source, as a predicate on
the looked-up amount. -/
def posBal (env : ChainName → List Coin) (c : ChainName) (d : String) : Bool :=
  jsTruthy (parseFloat (lookupAmount env c d)) &&
  jsGtZero (parseFloat (lookupAmount env c d))

/-- The node step of `DFS`: parse the balance of the current trace denom on
the chain at the end of the path and push a record when the guard holds.  The
current chain is the last path entry (the path is never empty in the
program; the default is irrelevant). -/
def processNode (env : ChainName → List Coin) (bd : String)
    (path : List ChainName) (t : DenomTrace) (bal : Balances) : Balances :=
  let cur := path.getLastD .neutron
  if posBal env cur t.denom then
    pushRecord bal cur ⟨t.denom, bd, parseFloat (lookupAmount env cur t.denom), path⟩
  else bal

/- ## Termination measure for the traversal -/

/-- Termination measure: twice the number of chains not yet in `path[1:]`,
plus one for the (unreachable in the program) empty path. -/
def dfsMeasure (path : List ChainName) : Nat :=
  2 * (chainNames.filter (fun x => decide (x ∉ path.drop 1))).length +
  (if path = [] then 1 else 0)

/-- Filtering by a stronger predicate yields a list no longer. -/
theorem length_filter_le {α : Type} (l : List α) (P Q : α → Bool)
    (h : ∀ x, Q x = true → P x = true) :
    (l.filter Q).length ≤ (l.filter P).length := by
  induction l with
  | nil => simp
  | cons a tl ih =>
    cases hQ : Q a
    · cases hP : P a <;> simp [List.filter_cons, hQ, hP] <;> omega
    · have hP := h a hQ
      simp [List.filter_cons, hQ, hP]
      omega

/-- Filtering by a strictly stronger predicate that loses a member of the
list yields a strictly shorter list. -/
theorem length_filter_lt {α : Type} (l : List α) (P Q : α → Bool)
    (h : ∀ x, Q x = true → P x = true) (c : α) (hc : c ∈ l)
    (hP : P c = true) (hQ : Q c = false) :
    (l.filter Q).length < (l.filter P).length := by
  induction l with
  | nil => cases hc
  | cons a tl ih =>
    rcases List.mem_cons.mp hc with rfl | hmem
    · have hle := length_filter_le tl P Q h
      simp [List.filter_cons, hP, hQ]
      omega
    · cases hQ2 : Q a
      · have hlt := ih hmem
        cases hP2 : P a <;> simp [List.filter_cons, hQ2, hP2] <;> omega
      · have hP2 := h a hQ2
        have hlt := ih hmem
        simp [List.filter_cons, hQ2, hP2]
        omega

/-- Every chain name occurs in `chainNames`. -/
theorem mem_chainNames (c : ChainName) : c ∈ chainNames := by
  cases c <;> simp [chainNames]

/-- Appending a chain not yet in `path[1:]` strictly decreases the measure. -/
theorem dfsMeasure_lt (path : List ChainName) (c : ChainName)
    (h : c ∉ path.drop 1) : dfsMeasure (path ++ [c]) < dfsMeasure path := by
  cases path with
  | nil =>
    unfold dfsMeasure
    have e1 : (([] : List ChainName) ++ [c]).drop 1 = ([] : List ChainName) := rfl
    have e2 : (([] : List ChainName)).drop 1 = ([] : List ChainName) := rfl
    rw [e1, e2, if_neg (by simp : ¬ (([] : List ChainName) ++ [c]) = []), if_pos rfl]
    omega
  | cons a rest =>
    have h' : c ∉ rest := by simpa using h
    have key : (chainNames.filter (fun x => decide (x ∉ rest ++ [c]))).length <
        (chainNames.filter (fun x => decide (x ∉ rest))).length := by
      refine length_filter_lt chainNames _ _ ?_ c (mem_chainNames c) ?_ ?_
      · intro x hx
        simp only [decide_eq_true_eq] at hx ⊢
        intro hmem
        exact hx (List.mem_append_left _ hmem)
      · simpa using h'
      · simp
    unfold dfsMeasure
    have e1 : ((a :: rest) ++ [c]).drop 1 = rest ++ [c] := rfl
    have e2 : (a :: rest).drop 1 = rest := rfl
    rw [e1, e2, if_neg (by simp : ¬ ((a :: rest) ++ [c]) = []),
      if_neg (by simp : ¬ (a :: rest) = [])]
    omega

/- ## The traversal -/

/-- Models the recursive `DFS` closure of `trackBalances`.  The JavaScript
iterates `chainNames.map(async chain => ...)`; the callbacks contain no
`await`, so each runs to completion synchronously, in list order — an
in-order fold over the six chains, unrolled here.  The guard for each
candidate chain is exactly `!path.slice(1).includes(chain) && currentChain
!== chain`. -/
def DFS (env : ChainName → List Coin) (bd : String)
    (path : List ChainName) (t : DenomTrace) (bal : Balances) : Balances :=
  let cur := path.getLastD .neutron
  let bal0 := processNode env bd path t bal
  let bal1 := if h1 : ChainName.neutron ∉ path.drop 1 ∧ cur ≠ .neutron then
      DFS env bd (path ++ [.neutron]) (getDenom cur .neutron t) bal0 else bal0
  let bal2 := if h2 : ChainName.osmosis ∉ path.drop 1 ∧ cur ≠ .osmosis then
      DFS env bd (path ++ [.osmosis]) (getDenom cur .osmosis t) bal1 else bal1
  let bal3 := if h3 : ChainName.terra ∉ path.drop 1 ∧ cur ≠ .terra then
      DFS env bd (path ++ [.terra]) (getDenom cur .terra t) bal2 else bal2
  let bal4 := if h4 : ChainName.stargaze ∉ path.drop 1 ∧ cur ≠ .stargaze then
      DFS env bd (path ++ [.stargaze]) (getDenom cur .stargaze t) bal3 else bal3
  let bal5 := if h5 : ChainName.cosmoshub ∉ path.drop 1 ∧ cur ≠ .cosmoshub then
      DFS env bd (path ++ [.cosmoshub]) (getDenom cur .cosmoshub t) bal4 else bal4
  if h6 : ChainName.stride ∉ path.drop 1 ∧ cur ≠ .stride then
      DFS env bd (path ++ [.stride]) (getDenom cur .stride t) bal5 else bal5
termination_by dfsMeasure path
decreasing_by
  · exact dfsMeasure_lt path .neutron h1.1
  · exact dfsMeasure_lt path .osmosis h2.1
  · exact dfsMeasure_lt path .terra h3.1
  · exact dfsMeasure_lt path .stargaze h4.1
  · exact dfsMeasure_lt path .cosmoshub h5.1
  · exact dfsMeasure_lt path .stride h6.1

/-- Models `trackBalances` after the snapshots have been fetched: the
traversal starts at path `['neutron']` with the zero-hop trace, over an
immutable snapshot set `env`.  The per-chain balance fetching (and the
address translation feeding it) is the external collaborator producing
`env`. -/
def trackBalances (denom : String) (env : ChainName → List Coin) : Balances :=
  DFS env denom [.neutron] ⟨denom, denom⟩ emptyBalances

/-- The (chain, trace) nodes visited by the traversal from a given frame, in
visit order: the current node followed by the nodes of each recursed-into
child frame, mirroring the guards of `DFS`. -/
def nodesFrom (path : List ChainName) (t : DenomTrace) :
    List (ChainName × DenomTrace) :=
  let cur := path.getLastD .neutron
  (cur, t) ::
  ((if h1 : ChainName.neutron ∉ path.drop 1 ∧ cur ≠ .neutron then
      nodesFrom (path ++ [.neutron]) (getDenom cur .neutron t) else []) ++
   ((if h2 : ChainName.osmosis ∉ path.drop 1 ∧ cur ≠ .osmosis then
      nodesFrom (path ++ [.osmosis]) (getDenom cur .osmosis t) else []) ++
    ((if h3 : ChainName.terra ∉ path.drop 1 ∧ cur ≠ .terra then
      nodesFrom (path ++ [.terra]) (getDenom cur .terra t) else []) ++
     ((if h4 : ChainName.stargaze ∉ path.drop 1 ∧ cur ≠ .stargaze then
      nodesFrom (path ++ [.stargaze]) (getDenom cur .stargaze t) else []) ++
      ((if h5 : ChainName.cosmoshub ∉ path.drop 1 ∧ cur ≠ .cosmoshub then
      nodesFrom (path ++ [.cosmoshub]) (getDenom cur .cosmoshub t) else []) ++
       (if h6 : ChainName.stride ∉ path.drop 1 ∧ cur ≠ .stride then
      nodesFrom (path ++ [.stride]) (getDenom cur .stride t) else []))))))
termination_by dfsMeasure path
decreasing_by
  · exact dfsMeasure_lt path .neutron h1.1
  · exact dfsMeasure_lt path .osmosis h2.1
  · exact dfsMeasure_lt path .terra h3.1
  · exact dfsMeasure_lt path .stargaze h4.1
  · exact dfsMeasure_lt path .cosmoshub h5.1
  · exact dfsMeasure_lt path .stride h6.1

/-- Step-indexed version of `DFS`, used to settle the termination claim: the
fuel bounds the recursion depth, and exhausting it yields `none`. -/
def DFSFuel (env : ChainName → List Coin) (bd : String) :
    Nat → List ChainName → DenomTrace → Balances → Option Balances
  | 0, _, _, _ => none
  | fuel + 1, path, t, bal =>
    let cur := path.getLastD .neutron
    let bal0 := processNode env bd path t bal
    (if ChainName.neutron ∉ path.drop 1 ∧ cur ≠ .neutron then
        DFSFuel env bd fuel (path ++ [.neutron]) (getDenom cur .neutron t) bal0
      else some bal0).bind fun bal1 =>
    (if ChainName.osmosis ∉ path.drop 1 ∧ cur ≠ .osmosis then
        DFSFuel env bd fuel (path ++ [.osmosis]) (getDenom cur .osmosis t) bal1
      else some bal1).bind fun bal2 =>
    (if ChainName.terra ∉ path.drop 1 ∧ cur ≠ .terra then
        DFSFuel env bd fuel (path ++ [.terra]) (getDenom cur .terra t) bal2
      else some bal2).bind fun bal3 =>
    (if ChainName.stargaze ∉ path.drop 1 ∧ cur ≠ .stargaze then
        DFSFuel env bd fuel (path ++ [.stargaze]) (getDenom cur .stargaze t) bal3
      else some bal3).bind fun bal4 =>
    (if ChainName.cosmoshub ∉ path.drop 1 ∧ cur ≠ .cosmoshub then
        DFSFuel env bd fuel (path ++ [.cosmoshub]) (getDenom cur .cosmoshub t) bal4
      else some bal4).bind fun bal5 =>
    (if ChainName.stride ∉ path.drop 1 ∧ cur ≠ .stride then
        DFSFuel env bd fuel (path ++ [.stride]) (getDenom cur .stride t) bal5
      else some bal5)

/- ## Fuel adequacy: the traversal terminates within depth 7 -/

/-- The number of chains not yet occurring in `path[1:]`. -/
def remChains (path : List ChainName) : Nat :=
  (chainNames.filter (fun x => decide (x ∉ path.drop 1))).length

/-- Recursing on an eligible chain strictly decreases `remChains` when the
path is nonempty. -/
theorem remChains_lt (a : ChainName) (rest : List ChainName) (c : ChainName)
    (h : c ∉ (a :: rest).drop 1) :
    remChains ((a :: rest) ++ [c]) < remChains (a :: rest) := by
  have h' : c ∉ rest := by simpa using h
  have key : (chainNames.filter (fun x => decide (x ∉ rest ++ [c]))).length <
      (chainNames.filter (fun x => decide (x ∉ rest))).length := by
    refine length_filter_lt chainNames _ _ ?_ c (mem_chainNames c) ?_ ?_
    · intro x hx
      simp only [decide_eq_true_eq] at hx ⊢
      intro hmem
      exact hx (List.mem_append_left _ hmem)
    · simpa using h'
    · simp
  unfold remChains
  have e1 : ((a :: rest) ++ [c]).drop 1 = rest ++ [c] := rfl
  have e2 : (a :: rest).drop 1 = rest := rfl
  rw [e1, e2]
  exact key

/-- With more fuel than `remChains path`, the step-indexed traversal never
exhausts its fuel and computes exactly the total traversal. -/
theorem DFSFuel_adequate (env : ChainName → List Coin) (bd : String) :
    ∀ fuel path t bal, path ≠ [] → remChains path < fuel →
      DFSFuel env bd fuel path t bal = some (DFS env bd path t bal) := by
  intro fuel
  induction fuel with
  | zero =>
    intro path t bal hne hlt
    exact absurd hlt (by omega)
  | succ n ih =>
    intro path t bal hne hlt
    obtain ⟨a, rest, rfl⟩ : ∃ a rest, path = a :: rest := by
      cases path with
      | nil => exact absurd rfl hne
      | cons a rest => exact ⟨a, rest, rfl⟩
    have hchild : ∀ (c : ChainName) (t' : DenomTrace) (b : Balances),
        c ∉ (a :: rest).drop 1 →
        DFSFuel env bd n ((a :: rest) ++ [c]) t' b =
          some (DFS env bd ((a :: rest) ++ [c]) t' b) := by
      intro c t' b hcm
      refine ih _ t' b (by simp) ?_
      have := remChains_lt a rest c hcm
      omega
    have step : ∀ (c : ChainName) (b : Balances),
        (if c ∉ (a :: rest).drop 1 ∧ (a :: rest).getLastD .neutron ≠ c then
          DFSFuel env bd n ((a :: rest) ++ [c])
            (getDenom ((a :: rest).getLastD .neutron) c t) b
         else some b) =
        some (if h : c ∉ (a :: rest).drop 1 ∧ (a :: rest).getLastD .neutron ≠ c then
          DFS env bd ((a :: rest) ++ [c])
            (getDenom ((a :: rest).getLastD .neutron) c t) b
         else b) := by
      intro c b
      by_cases hg : c ∉ (a :: rest).drop 1 ∧ (a :: rest).getLastD .neutron ≠ c
      · rw [if_pos hg, dif_pos hg]
        exact hchild c _ b hg.1
      · rw [if_neg hg, dif_neg hg]
    rw [DFS.eq_def]
    simp only [DFSFuel]
    rw [step .neutron, Option.some_bind, step .osmosis, Option.some_bind,
      step .terra, Option.some_bind, step .stargaze, Option.some_bind,
      step .cosmoshub, Option.some_bind, step .stride]

/-- C6: the traversal of `trackBalances` terminates: each recursive call
extends the path by a chain distinct from the current one and absent from
`path[1:]`, so the recursion depth from the initial frame is bounded by the
chain count plus one — fuel 7 makes the step-indexed traversal complete with
exactly the total traversal's result. -/
theorem C6_termination (env : ChainName → List Coin) (bd : String) :
    DFSFuel env bd 7 [.neutron] ⟨bd, bd⟩ emptyBalances =
      some (trackBalances bd env) := by
  unfold trackBalances
  refine DFSFuel_adequate env bd 7 [.neutron] ⟨bd, bd⟩ emptyBalances (by simp) ?_
  decide

/- ## Record invariants of the traversal -/

/-- Head of a list is unchanged by appending when the list is nonempty. -/
theorem head?_append_singleton {α : Type} (p : List α) (x : α) (hp : p ≠ []) :
    (p ++ [x]).head? = p.head? := by
  cases p with
  | nil => exact absurd rfl hp
  | cons a l => rfl

/-- Dropping the head of a nonempty list commutes with appending. -/
theorem drop_one_append_singleton {α : Type} (p : List α) (x : α) (hp : p ≠ []) :
    (p ++ [x]).drop 1 = p.drop 1 ++ [x] := by
  cases p with
  | nil => exact absurd rfl hp
  | cons a l => rfl

/-- The last element of a nonempty list, as computed with a default. -/
theorem getLast?_eq_some_getLastD {α : Type} (p : List α) (d : α) (hp : p ≠ []) :
    p.getLast? = some (p.getLastD d) := by
  induction p with
  | nil => exact absurd rfl hp
  | cons a l ih =>
    cases l with
    | nil => rfl
    | cons b l2 => simpa using ih (by simp)

/-- A record of the pushed-into mapping is an old record or the pushed one
(on the pushed chain). -/
theorem mem_pushRecord {bal : Balances} {c0 : ChainName} {r0 : BalanceRecord}
    {c : ChainName} {r : BalanceRecord}
    (h : r ∈ ((pushRecord bal c0 r0) c).getD []) :
    r ∈ (bal c).getD [] ∨ (c = c0 ∧ r = r0) := by
  unfold pushRecord at h
  by_cases hc : c = c0
  · subst hc
    rw [if_pos rfl] at h
    simp only [Option.getD_some] at h
    rcases List.mem_append.mp h with h1 | h2
    · exact Or.inl h1
    · simp only [List.mem_singleton] at h2
      exact Or.inr ⟨rfl, h2⟩
  · rw [if_neg hc] at h
    exact Or.inl h

/-- The node step preserves any record property that holds of every record it
may push. -/
theorem processNode_inv (env : ChainName → List Coin) (bd : String)
    (P : ChainName → BalanceRecord → Prop)
    (hP : ∀ (p : List ChainName) (t : DenomTrace),
      p ≠ [] → p.head? = some ChainName.neutron → (p.drop 1).Nodup →
      posBal env (p.getLastD .neutron) t.denom = true →
      P (p.getLastD .neutron)
        ⟨t.denom, bd, parseFloat (lookupAmount env (p.getLastD .neutron) t.denom), p⟩)
    (p : List ChainName) (t : DenomTrace) (bal : Balances)
    (hne : p ≠ []) (hhead : p.head? = some ChainName.neutron)
    (hnd : (p.drop 1).Nodup)
    (hbal : ∀ c r, r ∈ (bal c).getD [] → P c r) :
    ∀ c r, r ∈ ((processNode env bd p t bal) c).getD [] → P c r := by
  intro c r hr
  simp only [processNode] at hr
  by_cases hg : posBal env (p.getLastD .neutron) t.denom = true
  · rw [if_pos hg] at hr
    rcases mem_pushRecord hr with hold | ⟨rfl, rfl⟩
    · exact hbal c r hold
    · exact hP p t hne hhead hnd hg
  · rw [if_neg hg] at hr
    exact hbal c r hr

/-- Any record property holding of every pushable record and of the initial
mapping holds of every record of the step-indexed traversal's result. -/
theorem DFSFuel_mem_inv (env : ChainName → List Coin) (bd : String)
    (P : ChainName → BalanceRecord → Prop)
    (hP : ∀ (p : List ChainName) (t : DenomTrace),
      p ≠ [] → p.head? = some ChainName.neutron → (p.drop 1).Nodup →
      posBal env (p.getLastD .neutron) t.denom = true →
      P (p.getLastD .neutron)
        ⟨t.denom, bd, parseFloat (lookupAmount env (p.getLastD .neutron) t.denom), p⟩) :
    ∀ fuel p t bal out, p ≠ [] → p.head? = some ChainName.neutron →
      (p.drop 1).Nodup →
      (∀ c r, r ∈ (bal c).getD [] → P c r) →
      DFSFuel env bd fuel p t bal = some out →
      ∀ c r, r ∈ (out c).getD [] → P c r := by
  intro fuel
  induction fuel with
  | zero =>
    intro p t bal out _ _ _ _ heq
    exact absurd heq (by simp [DFSFuel])
  | succ n ih =>
    intro p t bal out hne hhead hnd hbal heq
    have hb0 := processNode_inv env bd P hP p t bal hne hhead hnd hbal
    have hstep : ∀ (c : ChainName) (t' : DenomTrace) (b b' : Balances),
        (∀ c2 r, r ∈ (b c2).getD [] → P c2 r) →
        (if c ∉ p.drop 1 ∧ p.getLastD .neutron ≠ c then
            DFSFuel env bd n (p ++ [c]) t' b else some b) = some b' →
        ∀ c2 r, r ∈ (b' c2).getD [] → P c2 r := by
      intro c t' b b' hb hb'
      by_cases hg : c ∉ p.drop 1 ∧ p.getLastD .neutron ≠ c
      · rw [if_pos hg] at hb'
        refine ih (p ++ [c]) t' b b' (by simp) ?_ ?_ hb hb'
        · rw [head?_append_singleton p c hne]
          exact hhead
        · rw [drop_one_append_singleton p c hne, List.nodup_append]
          refine ⟨hnd, List.nodup_singleton c, ?_⟩
          intro x hx hc2
          rw [List.mem_singleton] at hc2
          subst hc2
          exact hg.1 hx
      · rw [if_neg hg] at hb'
        injection hb' with hb'
        subst hb'
        exact hb
    simp only [DFSFuel] at heq
    rw [Option.bind_eq_some] at heq
    obtain ⟨b1, e1, heq⟩ := heq
    have hb1 := hstep ChainName.neutron _ _ _ hb0 e1
    rw [Option.bind_eq_some] at heq
    obtain ⟨b2, e2, heq⟩ := heq
    have hb2 := hstep ChainName.osmosis _ _ _ hb1 e2
    rw [Option.bind_eq_some] at heq
    obtain ⟨b3, e3, heq⟩ := heq
    have hb3 := hstep ChainName.terra _ _ _ hb2 e3
    rw [Option.bind_eq_some] at heq
    obtain ⟨b4, e4, heq⟩ := heq
    have hb4 := hstep ChainName.stargaze _ _ _ hb3 e4
    rw [Option.bind_eq_some] at heq
    obtain ⟨b5, e5, heq⟩ := heq
    have hb5 := hstep ChainName.cosmoshub _ _ _ hb4 e5
    exact hstep ChainName.stride _ _ _ hb5 heq

/-- Transfer of the record invariant to the total traversal. -/
theorem DFS_mem_inv (env : ChainName → List Coin) (bd : String)
    (P : ChainName → BalanceRecord → Prop)
    (hP : ∀ (p : List ChainName) (t : DenomTrace),
      p ≠ [] → p.head? = some ChainName.neutron → (p.drop 1).Nodup →
      posBal env (p.getLastD .neutron) t.denom = true →
      P (p.getLastD .neutron)
        ⟨t.denom, bd, parseFloat (lookupAmount env (p.getLastD .neutron) t.denom), p⟩)
    (p : List ChainName) (t : DenomTrace) (bal : Balances)
    (hne : p ≠ []) (hhead : p.head? = some ChainName.neutron)
    (hnd : (p.drop 1).Nodup)
    (hbal : ∀ c r, r ∈ (bal c).getD [] → P c r) :
    ∀ c r, r ∈ ((DFS env bd p t bal) c).getD [] → P c r := by
  have hfa := DFSFuel_adequate env bd (remChains p + 1) p t bal hne (by omega)
  exact DFSFuel_mem_inv env bd P hP (remChains p + 1) p t bal _ hne hhead hnd hbal hfa

/- ## Traversals that find nothing -/

/-- Unfolding of the visited-node list: the current node, then the child
blocks in iteration order. -/
theorem nodesFrom_unfold (p : List ChainName) (t : DenomTrace) :
    nodesFrom p t =
      (p.getLastD .neutron, t) ::
      ((if _h1 : ChainName.neutron ∉ p.drop 1 ∧ p.getLastD .neutron ≠ .neutron then
          nodesFrom (p ++ [.neutron]) (getDenom (p.getLastD .neutron) .neutron t) else []) ++
       ((if _h2 : ChainName.osmosis ∉ p.drop 1 ∧ p.getLastD .neutron ≠ .osmosis then
          nodesFrom (p ++ [.osmosis]) (getDenom (p.getLastD .neutron) .osmosis t) else []) ++
        ((if _h3 : ChainName.terra ∉ p.drop 1 ∧ p.getLastD .neutron ≠ .terra then
          nodesFrom (p ++ [.terra]) (getDenom (p.getLastD .neutron) .terra t) else []) ++
         ((if _h4 : ChainName.stargaze ∉ p.drop 1 ∧ p.getLastD .neutron ≠ .stargaze then
          nodesFrom (p ++ [.stargaze]) (getDenom (p.getLastD .neutron) .stargaze t) else []) ++
          ((if _h5 : ChainName.cosmoshub ∉ p.drop 1 ∧ p.getLastD .neutron ≠ .cosmoshub then
          nodesFrom (p ++ [.cosmoshub]) (getDenom (p.getLastD .neutron) .cosmoshub t) else []) ++
           (if _h6 : ChainName.stride ∉ p.drop 1 ∧ p.getLastD .neutron ≠ .stride then
          nodesFrom (p ++ [.stride]) (getDenom (p.getLastD .neutron) .stride t) else [])))))) := by
  rw [nodesFrom.eq_def]

/-- A node of a recursed-into child frame occurs among the non-root visited
nodes of the parent frame. -/
theorem nodesFrom_child_mem_tail (p : List ChainName) (t : DenomTrace)
    (c : ChainName) (hg : c ∉ p.drop 1 ∧ p.getLastD .neutron ≠ c)
    (nd : ChainName × DenomTrace)
    (hnd : nd ∈ nodesFrom (p ++ [c]) (getDenom (p.getLastD .neutron) c t)) :
    nd ∈ (nodesFrom p t).drop 1 := by
  rw [nodesFrom_unfold, List.drop_succ_cons, List.drop_zero]
  cases c with
  | neutron =>
    exact List.mem_append_left _ (by rw [dif_pos hg]; exact hnd)
  | osmosis =>
    exact List.mem_append_right _ (List.mem_append_left _
      (by rw [dif_pos hg]; exact hnd))
  | terra =>
    exact List.mem_append_right _ (List.mem_append_right _
      (List.mem_append_left _ (by rw [dif_pos hg]; exact hnd)))
  | stargaze =>
    exact List.mem_append_right _ (List.mem_append_right _
      (List.mem_append_right _ (List.mem_append_left _
        (by rw [dif_pos hg]; exact hnd))))
  | cosmoshub =>
    exact List.mem_append_right _ (List.mem_append_right _
      (List.mem_append_right _ (List.mem_append_right _
        (List.mem_append_left _ (by rw [dif_pos hg]; exact hnd)))))
  | stride =>
    exact List.mem_append_right _ (List.mem_append_right _
      (List.mem_append_right _ (List.mem_append_right _
        (List.mem_append_right _ (by rw [dif_pos hg]; exact hnd)))))

/-- Every visited node carries the root trace or a trace whose denom starts
with `ibc/` (it came out of `getDenom`). -/
theorem nodesFrom_shape (n : Nat) : ∀ (p : List ChainName) (t : DenomTrace),
    dfsMeasure p ≤ n → ∀ nd ∈ nodesFrom p t,
    nd.2 = t ∨ ∃ rest, nd.2.denom = "ibc/" ++ rest := by
  induction n using Nat.strong_induction_on with
  | _ n ih =>
    intro p t hm nd hnd
    have hblock : ∀ (c : ChainName),
        (c ∉ p.drop 1 ∧ p.getLastD .neutron ≠ c) →
        nd ∈ nodesFrom (p ++ [c]) (getDenom (p.getLastD .neutron) c t) →
        nd.2 = t ∨ ∃ rest, nd.2.denom = "ibc/" ++ rest := by
      intro c hg hmem
      have hlt := dfsMeasure_lt p c hg.1
      have hres := ih (dfsMeasure (p ++ [c])) (by omega) (p ++ [c]) _ le_rfl nd hmem
      rcases hres with h1 | h2
      · right
        rw [h1]
        exact ⟨_, rfl⟩
      · exact Or.inr h2
    rw [nodesFrom_unfold] at hnd
    rcases List.mem_cons.mp hnd with h0 | htail
    · left
      rw [h0]
    · rcases List.mem_append.mp htail with h1 | htail
      · by_cases hg : ChainName.neutron ∉ p.drop 1 ∧ p.getLastD .neutron ≠ ChainName.neutron
        · rw [dif_pos hg] at h1
          exact hblock .neutron hg h1
        · rw [dif_neg hg] at h1
          simp at h1
      · rcases List.mem_append.mp htail with h2 | htail
        · by_cases hg : ChainName.osmosis ∉ p.drop 1 ∧ p.getLastD .neutron ≠ ChainName.osmosis
          · rw [dif_pos hg] at h2
            exact hblock .osmosis hg h2
          · rw [dif_neg hg] at h2
            simp at h2
        · rcases List.mem_append.mp htail with h3 | htail
          · by_cases hg : ChainName.terra ∉ p.drop 1 ∧ p.getLastD .neutron ≠ ChainName.terra
            · rw [dif_pos hg] at h3
              exact hblock .terra hg h3
            · rw [dif_neg hg] at h3
              simp at h3
          · rcases List.mem_append.mp htail with h4 | htail
            · by_cases hg : ChainName.stargaze ∉ p.drop 1 ∧ p.getLastD .neutron ≠ ChainName.stargaze
              · rw [dif_pos hg] at h4
                exact hblock .stargaze hg h4
              · rw [dif_neg hg] at h4
                simp at h4
            · rcases List.mem_append.mp htail with h5 | h6
              · by_cases hg : ChainName.cosmoshub ∉ p.drop 1 ∧ p.getLastD .neutron ≠ ChainName.cosmoshub
                · rw [dif_pos hg] at h5
                  exact hblock .cosmoshub hg h5
                · rw [dif_neg hg] at h5
                  simp at h5
              · by_cases hg : ChainName.stride ∉ p.drop 1 ∧ p.getLastD .neutron ≠ ChainName.stride
                · rw [dif_pos hg] at h6
                  exact hblock .stride hg h6
                · rw [dif_neg hg] at h6
                  simp at h6

/-- Every non-root visited node has a denom starting with `ibc/`. -/
theorem nodesFrom_tail_ibc (p : List ChainName) (t : DenomTrace)
    (nd : ChainName × DenomTrace) (hnd : nd ∈ (nodesFrom p t).drop 1) :
    ∃ rest, nd.2.denom = "ibc/" ++ rest := by
  have hblock : ∀ (c : ChainName),
      nd ∈ nodesFrom (p ++ [c]) (getDenom (p.getLastD .neutron) c t) →
      ∃ rest, nd.2.denom = "ibc/" ++ rest := by
    intro c hmem
    rcases nodesFrom_shape (dfsMeasure (p ++ [c])) (p ++ [c]) _ le_rfl nd hmem with h1 | h2
    · rw [h1]
      exact ⟨_, rfl⟩
    · exact h2
  rw [nodesFrom_unfold, List.drop_succ_cons, List.drop_zero] at hnd
  rcases List.mem_append.mp hnd with h1 | htail
  · by_cases hg : ChainName.neutron ∉ p.drop 1 ∧ p.getLastD .neutron ≠ ChainName.neutron
    · rw [dif_pos hg] at h1
      exact hblock .neutron h1
    · rw [dif_neg hg] at h1
      simp at h1
  · rcases List.mem_append.mp htail with h2 | htail
    · by_cases hg : ChainName.osmosis ∉ p.drop 1 ∧ p.getLastD .neutron ≠ ChainName.osmosis
      · rw [dif_pos hg] at h2
        exact hblock .osmosis h2
      · rw [dif_neg hg] at h2
        simp at h2
    · rcases List.mem_append.mp htail with h3 | htail
      · by_cases hg : ChainName.terra ∉ p.drop 1 ∧ p.getLastD .neutron ≠ ChainName.terra
        · rw [dif_pos hg] at h3
          exact hblock .terra h3
        · rw [dif_neg hg] at h3
          simp at h3
      · rcases List.mem_append.mp htail with h4 | htail
        · by_cases hg : ChainName.stargaze ∉ p.drop 1 ∧ p.getLastD .neutron ≠ ChainName.stargaze
          · rw [dif_pos hg] at h4
            exact hblock .stargaze h4
          · rw [dif_neg hg] at h4
            simp at h4
        · rcases List.mem_append.mp htail with h5 | h6
          · by_cases hg : ChainName.cosmoshub ∉ p.drop 1 ∧ p.getLastD .neutron ≠ ChainName.cosmoshub
            · rw [dif_pos hg] at h5
              exact hblock .cosmoshub h5
            · rw [dif_neg hg] at h5
              simp at h5
          · by_cases hg : ChainName.stride ∉ p.drop 1 ∧ p.getLastD .neutron ≠ ChainName.stride
            · rw [dif_pos hg] at h6
              exact hblock .stride h6
            · rw [dif_neg hg] at h6
              simp at h6

/-- When no visited node of a frame passes the balance guard, the
step-indexed traversal leaves the mapping unchanged. -/
theorem DFSFuel_no_hits (env : ChainName → List Coin) (bd : String) :
    ∀ fuel (p : List ChainName) (t : DenomTrace) (bal out : Balances),
      (∀ nd ∈ nodesFrom p t, posBal env nd.1 nd.2.denom = false) →
      DFSFuel env bd fuel p t bal = some out → out = bal := by
  intro fuel
  induction fuel with
  | zero =>
    intro p t bal out _ heq
    exact absurd heq (by simp [DFSFuel])
  | succ n ih =>
    intro p t bal out hno heq
    have hroot : posBal env (p.getLastD .neutron) t.denom = false :=
      hno (p.getLastD .neutron, t) (by rw [nodesFrom_unfold]; exact List.mem_cons_self _ _)
    have hb0 : processNode env bd p t bal = bal := by
      simp only [processNode]
      rw [if_neg]
      rw [hroot]
      simp
    have hstep : ∀ (c : ChainName) (b b' : Balances),
        (if c ∉ p.drop 1 ∧ p.getLastD .neutron ≠ c then
            DFSFuel env bd n (p ++ [c]) (getDenom (p.getLastD .neutron) c t) b
          else some b) = some b' → b' = b := by
      intro c b b' hb'
      by_cases hg : c ∉ p.drop 1 ∧ p.getLastD .neutron ≠ c
      · rw [if_pos hg] at hb'
        refine ih (p ++ [c]) _ b b' ?_ hb'
        intro nd hnd
        exact hno nd (List.mem_of_mem_drop (nodesFrom_child_mem_tail p t c hg nd hnd))
      · rw [if_neg hg] at hb'
        injection hb' with hb'
        exact hb'.symm
    simp only [DFSFuel] at heq
    rw [hb0] at heq
    rw [Option.bind_eq_some] at heq
    obtain ⟨b1, e1, heq⟩ := heq
    have hb1 := hstep ChainName.neutron _ _ e1
    subst hb1
    rw [Option.bind_eq_some] at heq
    obtain ⟨b2, e2, heq⟩ := heq
    have hb2 := hstep ChainName.osmosis _ _ e2
    subst hb2
    rw [Option.bind_eq_some] at heq
    obtain ⟨b3, e3, heq⟩ := heq
    have hb3 := hstep ChainName.terra _ _ e3
    subst hb3
    rw [Option.bind_eq_some] at heq
    obtain ⟨b4, e4, heq⟩ := heq
    have hb4 := hstep ChainName.stargaze _ _ e4
    subst hb4
    rw [Option.bind_eq_some] at heq
    obtain ⟨b5, e5, heq⟩ := heq
    have hb5 := hstep ChainName.cosmoshub _ _ e5
    subst hb5
    exact hstep ChainName.stride _ _ heq

/-- When no visited node of a frame passes the balance guard, the traversal
leaves the mapping unchanged. -/
theorem DFS_no_hits (env : ChainName → List Coin) (bd : String)
    (p : List ChainName) (t : DenomTrace) (hne : p ≠ [])
    (hno : ∀ nd ∈ nodesFrom p t, posBal env nd.1 nd.2.denom = false) :
    ∀ bal, DFS env bd p t bal = bal := by
  intro bal
  have hfa := DFSFuel_adequate env bd (remChains p + 1) p t bal hne (by omega)
  exact DFSFuel_no_hits env bd (remChains p + 1) p t bal _ hno hfa

/-- When no visited node of the whole run passes the balance guard, the
returned mapping is empty. -/
theorem trackBalances_no_hits (env : ChainName → List Coin) (bd : String)
    (hno : ∀ nd ∈ nodesFrom [ChainName.neutron] ⟨bd, bd⟩,
      posBal env nd.1 nd.2.denom = false) :
    trackBalances bd env = emptyBalances := by
  unfold trackBalances
  exact DFS_no_hits env bd [.neutron] ⟨bd, bd⟩ (by simp) hno emptyBalances

/-- A run whose root node passes the guard while every other visited node
fails it returns exactly one record, pushed for the origin. -/
theorem trackBalances_root_only (env : ChainName → List Coin) (bd : String)
    (hroot : posBal env .neutron bd = true)
    (htail : ∀ nd ∈ (nodesFrom [ChainName.neutron] ⟨bd, bd⟩).drop 1,
      posBal env nd.1 nd.2.denom = false) :
    trackBalances bd env =
      pushRecord emptyBalances .neutron
        ⟨bd, bd, parseFloat (lookupAmount env .neutron bd), [.neutron]⟩ := by
  have hch : ∀ (c : ChainName), c ≠ ChainName.neutron → ∀ b,
      DFS env bd ([ChainName.neutron] ++ [c])
        (getDenom (([ChainName.neutron] : List ChainName).getLastD .neutron) c ⟨bd, bd⟩) b = b := by
    intro c hc b
    refine DFS_no_hits env bd _ _ (by simp) ?_ b
    intro nd hnd
    refine htail nd (nodesFrom_child_mem_tail [ChainName.neutron] ⟨bd, bd⟩ c ⟨by simp, ?_⟩ nd hnd)
    show ChainName.neutron ≠ c
    exact fun h => hc h.symm
  unfold trackBalances
  rw [DFS.eq_def]
  simp only []
  rw [dif_neg (by decide :
    ¬ (ChainName.neutron ∉ ([ChainName.neutron] : List ChainName).drop 1 ∧
       ([ChainName.neutron] : List ChainName).getLastD ChainName.neutron ≠ ChainName.neutron))]
  rw [dif_pos (by decide :
    ChainName.osmosis ∉ ([ChainName.neutron] : List ChainName).drop 1 ∧
    ([ChainName.neutron] : List ChainName).getLastD ChainName.neutron ≠ ChainName.osmosis)]
  rw [dif_pos (by decide :
    ChainName.terra ∉ ([ChainName.neutron] : List ChainName).drop 1 ∧
    ([ChainName.neutron] : List ChainName).getLastD ChainName.neutron ≠ ChainName.terra)]
  rw [dif_pos (by decide :
    ChainName.stargaze ∉ ([ChainName.neutron] : List ChainName).drop 1 ∧
    ([ChainName.neutron] : List ChainName).getLastD ChainName.neutron ≠ ChainName.stargaze)]
  rw [dif_pos (by decide :
    ChainName.cosmoshub ∉ ([ChainName.neutron] : List ChainName).drop 1 ∧
    ([ChainName.neutron] : List ChainName).getLastD ChainName.neutron ≠ ChainName.cosmoshub)]
  rw [dif_pos (by decide :
    ChainName.stride ∉ ([ChainName.neutron] : List ChainName).drop 1 ∧
    ([ChainName.neutron] : List ChainName).getLastD ChainName.neutron ≠ ChainName.stride)]
  rw [hch .osmosis (by decide), hch .terra (by decide), hch .stargaze (by decide),
    hch .cosmoshub (by decide), hch .stride (by decide)]
  simp only [processNode]
  rw [if_pos]
  · rfl
  · exact hroot

/- ## Concrete snapshot fixtures -/

/-- A short string is never `ibc/` followed by anything. -/
theorem ne_ibc_of_short (s : String) (hs : s.length < 4) (rest : String) :
    s ≠ "ibc/" ++ rest := by
  intro h
  have hl := congrArg String.length h
  rw [String.length_append] at hl
  have h4 : ("ibc/" : String).length = 4 := rfl
  rw [h4] at hl
  omega

/-- In a snapshot whose coins all have short denoms, every non-root visited
node fails the balance guard: its denom starts with `ibc/` and matches no
coin. -/
theorem posBal_false_of_tail (env : ChainName → List Coin)
    (hcoins : ∀ c coin, coin ∈ env c → coin.denom.length < 4)
    (p : List ChainName) (t : DenomTrace) (nd : ChainName × DenomTrace)
    (hnd : nd ∈ (nodesFrom p t).drop 1) :
    posBal env nd.1 nd.2.denom = false := by
  obtain ⟨rest, hr⟩ := nodesFrom_tail_ibc p t nd hnd
  have hfind : (env nd.1).find? (fun coin => coin.denom == nd.2.denom) = none := by
    rw [List.find?_eq_none]
    intro coin hc
    rw [hr]
    simp only [beq_iff_eq]
    exact ne_ibc_of_short coin.denom (hcoins nd.1 coin hc) rest
  unfold posBal lookupAmount
  rw [hfind]
  decide

/-- Snapshot set holding only 100 of the base denom `d` on the origin. -/
def envBase : ChainName → List Coin
  | .neutron => [⟨"d", "100"⟩]
  | _ => []

/-- Snapshot set whose origin amount for `d` is the string "Infinity". -/
def envInf : ChainName → List Coin
  | .neutron => [⟨"d", "Infinity"⟩]
  | _ => []

/-- Snapshot set with two origin entries for `d`: a zero one first, a positive
one second. -/
def envDup : ChainName → List Coin
  | .neutron => [⟨"d", "0"⟩, ⟨"d", "5"⟩]
  | _ => []

/-- All fixture denoms are short. -/
theorem envBase_short : ∀ c coin, coin ∈ envBase c → coin.denom.length < 4 := by
  intro c coin hc
  cases c <;> simp [envBase] at hc
  subst hc
  decide

/-- All fixture denoms are short. -/
theorem envInf_short : ∀ c coin, coin ∈ envInf c → coin.denom.length < 4 := by
  intro c coin hc
  cases c <;> simp [envInf] at hc
  subst hc
  decide

/-- All fixture denoms are short. -/
theorem envDup_short : ∀ c coin, coin ∈ envDup c → coin.denom.length < 4 := by
  intro c coin hc
  cases c <;> simp [envDup] at hc
  rcases hc with hc | hc <;> subst hc <;> decide

/-- The run over `envBase` records exactly the origin holding. -/
theorem tb_envBase : trackBalances "d" envBase =
    pushRecord emptyBalances .neutron ⟨"d", "d", JSNum.num 100, [.neutron]⟩ := by
  have h := trackBalances_root_only envBase "d" (by decide)
    (fun nd hnd => posBal_false_of_tail envBase envBase_short _ _ nd hnd)
  rw [h]
  rw [show parseFloat (lookupAmount envBase .neutron "d") = JSNum.num 100 from by decide]

/-- The run over `envInf` records exactly one record of infinite balance. -/
theorem tb_envInf : trackBalances "d" envInf =
    pushRecord emptyBalances .neutron ⟨"d", "d", JSNum.posInf, [.neutron]⟩ := by
  have h := trackBalances_root_only envInf "d" (by decide)
    (fun nd hnd => posBal_false_of_tail envInf envInf_short _ _ nd hnd)
  rw [h]
  rw [show parseFloat (lookupAmount envInf .neutron "d") = JSNum.posInf from by decide]

/-- The run over `envDup` records nothing: only the first matching snapshot
entry is consulted, and it parses to zero. -/
theorem tb_envDup : trackBalances "d" envDup = emptyBalances := by
  refine trackBalances_no_hits envDup "d" ?_
  intro nd hnd
  rw [nodesFrom_unfold] at hnd
  rcases List.mem_cons.mp hnd with h0 | htail
  · rw [h0]
    decide
  · refine posBal_false_of_tail envDup envDup_short [ChainName.neutron] ⟨"d", "d"⟩ nd ?_
    rw [nodesFrom_unfold, List.drop_succ_cons, List.drop_zero]
    exact htail

/- ## Claims about the traversal -/

/-- C7: if the base denom parses to a positive finite balance `B` at the
origin node and every other visited node fails the balance guard (zero
balance for every other reachable denom), then the returned mapping has
exactly one key, the origin `neutron`, holding exactly the one record
`{denom: bd, originDenom: bd, balance: B, path: [neutron]}`. -/
theorem C7_base_denom_only_on_origin (env : ChainName → List Coin)
    (bd : String) (B : Rat)
    (hpos : parseFloat (lookupAmount env .neutron bd) = JSNum.num B)
    (hB : 0 < B)
    (htail : ∀ nd ∈ (nodesFrom [ChainName.neutron] ⟨bd, bd⟩).drop 1,
      posBal env nd.1 nd.2.denom = false) :
    (trackBalances bd env) .neutron = some [⟨bd, bd, JSNum.num B, [.neutron]⟩] ∧
    ∀ c : ChainName, c ≠ .neutron → (trackBalances bd env) c = none := by
  have hroot : posBal env .neutron bd = true := by
    unfold posBal
    rw [hpos]
    simp [jsTruthy, jsGtZero, hB, hB.ne']
  have h := trackBalances_root_only env bd hroot htail
  rw [hpos] at h
  constructor
  · rw [h]
    simp [pushRecord, emptyBalances]
  · intro c hc
    rw [h]
    simp [pushRecord, emptyBalances, hc]

/-- Witness for C7 over the fixture holding 100 of `d` on the origin only. -/
theorem C7_witness :
    (parseFloat (lookupAmount envBase .neutron "d") = JSNum.num 100 ∧
      (0 : Rat) < 100) ∧
    ((trackBalances "d" envBase) .neutron =
        some [⟨"d", "d", JSNum.num 100, [ChainName.neutron]⟩] ∧
      ∀ c : ChainName, c ≠ .neutron → (trackBalances "d" envBase) c = none) :=
  ⟨⟨by decide, by decide⟩,
   C7_base_denom_only_on_origin envBase "d" 100 (by decide) (by decide)
     (fun nd hnd => posBal_false_of_tail envBase envBase_short _ _ nd hnd)⟩

/-- C2 (amended): every balance record produced by `trackBalances` has a
balance that is truthy and strictly greater than zero; positive infinity is
among the admitted balances, so the balance need not be finite. -/
theorem C2_records_positive (env : ChainName → List Coin) (bd : String)
    (c : ChainName) (r : BalanceRecord)
    (hr : r ∈ ((trackBalances bd env) c).getD []) :
    jsTruthy r.balance = true ∧ jsGtZero r.balance = true := by
  have main := DFS_mem_inv env bd
    (fun _ r2 => jsTruthy r2.balance = true ∧ jsGtZero r2.balance = true)
    (fun p t _ _ _ hg => by
      unfold posBal at hg
      rw [Bool.and_eq_true] at hg
      exact hg)
    [.neutron] ⟨bd, bd⟩ emptyBalances (by simp) rfl (by simp)
    (fun c2 r2 h2 => absurd h2 (by simp [emptyBalances]))
  exact main c r hr

/-- C2 counterexample: over `envInf` the run produces a record whose balance
is positive infinity — not a finite number — because the guard
`balance && balance > 0` admits `parseFloat("Infinity")`; and over `envDup`
the snapshot does contain an entry for `d` parsing to the finite positive 5,
yet no record is produced, because only the first matching entry (amount
"0") is consulted. -/
theorem C2_counterexample :
    ((trackBalances "d" envInf) ChainName.neutron =
        some [⟨"d", "d", JSNum.posInf, [ChainName.neutron]⟩] ∧
      jsFinite JSNum.posInf = false) ∧
    (envDup ChainName.neutron = [⟨"d", "0"⟩, ⟨"d", "5"⟩] ∧
      parseFloat "5" = JSNum.num 5 ∧ jsFinite (JSNum.num 5) = true ∧
      (0 : Rat) < 5 ∧
      (trackBalances "d" envDup) ChainName.neutron = none) := by
  refine ⟨⟨?_, rfl⟩, rfl, by decide, rfl, by decide, ?_⟩
  · rw [tb_envInf]
    simp [pushRecord, emptyBalances]
  · rw [tb_envDup]
    rfl

/-- Witness for the amended C2 at the infinite-balance record of `envInf`. -/
theorem C2_witness :
    (⟨"d", "d", JSNum.posInf, [ChainName.neutron]⟩ : BalanceRecord) ∈
      ((trackBalances "d" envInf) ChainName.neutron).getD [] ∧
    jsTruthy JSNum.posInf = true ∧ jsGtZero JSNum.posInf = true := by
  have hmem : (⟨"d", "d", JSNum.posInf, [ChainName.neutron]⟩ : BalanceRecord) ∈
      ((trackBalances "d" envInf) ChainName.neutron).getD [] := by
    rw [tb_envInf]
    simp [pushRecord, emptyBalances]
  exact ⟨hmem, C2_records_positive envInf "d" ChainName.neutron _ hmem⟩

/-- C4: every produced record's path has no duplicates after its first
element; the path starts at the origin, any non-origin chain occurs at most
once in the whole path, and the origin occurs at most twice. -/
theorem C4_path_no_duplicates (env : ChainName → List Coin) (bd : String)
    (c : ChainName) (r : BalanceRecord)
    (hr : r ∈ ((trackBalances bd env) c).getD []) :
    (r.path.drop 1).Nodup ∧ r.path.head? = some ChainName.neutron ∧
    (∀ x : ChainName, x ≠ ChainName.neutron → r.path.count x ≤ 1) ∧
    r.path.count ChainName.neutron ≤ 2 := by
  have main := DFS_mem_inv env bd
    (fun _ r2 => r2.path.head? = some ChainName.neutron ∧ (r2.path.drop 1).Nodup)
    (fun p t _ hhead hnd _ => ⟨hhead, hnd⟩)
    [.neutron] ⟨bd, bd⟩ emptyBalances (by simp) rfl (by simp)
    (fun c2 r2 h2 => absurd h2 (by simp [emptyBalances]))
  obtain ⟨hhead, hnd⟩ := main c r hr
  obtain ⟨tl, htl⟩ : ∃ tl, r.path = ChainName.neutron :: tl := by
    cases hpath : r.path with
    | nil =>
      rw [hpath] at hhead
      exact absurd hhead (by simp)
    | cons a l =>
      rw [hpath] at hhead
      simp only [List.head?_cons, Option.some.injEq] at hhead
      exact ⟨l, by rw [hhead]⟩
  rw [htl] at hnd ⊢
  rw [List.drop_succ_cons, List.drop_zero] at hnd
  refine ⟨by simpa using hnd, by simp, ?_, ?_⟩
  · intro x hx
    rw [List.count_cons]
    have hbe : (ChainName.neutron == x) = false := by
      simpa using Ne.symm hx
    rw [hbe]
    simpa using List.nodup_iff_count_le_one.mp hnd x
  · rw [List.count_cons]
    have := List.nodup_iff_count_le_one.mp hnd ChainName.neutron
    simp only [beq_self_eq_true, if_true]
    omega

/-- Witness for C4 at the single produced record of `envBase`. -/
theorem C4_witness :
    (⟨"d", "d", JSNum.num 100, [ChainName.neutron]⟩ : BalanceRecord) ∈
      ((trackBalances "d" envBase) ChainName.neutron).getD [] ∧
    (([ChainName.neutron] : List ChainName).drop 1).Nodup ∧
    ([ChainName.neutron] : List ChainName).head? = some ChainName.neutron ∧
    (∀ x : ChainName, x ≠ ChainName.neutron →
      ([ChainName.neutron] : List ChainName).count x ≤ 1) ∧
    ([ChainName.neutron] : List ChainName).count ChainName.neutron ≤ 2 := by
  have hmem : (⟨"d", "d", JSNum.num 100, [ChainName.neutron]⟩ : BalanceRecord) ∈
      ((trackBalances "d" envBase) ChainName.neutron).getD [] := by
    rw [tb_envBase]
    simp [pushRecord, emptyBalances]
  exact ⟨hmem, C4_path_no_duplicates envBase "d" ChainName.neutron _ hmem⟩

/-- C5: every record stored under a chain key has a path ending at that
chain. -/
theorem C5_record_on_final_chain (env : ChainName → List Coin) (bd : String)
    (c : ChainName) (r : BalanceRecord)
    (hr : r ∈ ((trackBalances bd env) c).getD []) :
    r.path.getLast? = some c := by
  have main := DFS_mem_inv env bd
    (fun c2 r2 => r2.path.getLast? = some c2)
    (fun p t hne _ _ _ => getLast?_eq_some_getLastD p ChainName.neutron hne)
    [.neutron] ⟨bd, bd⟩ emptyBalances (by simp) rfl (by simp)
    (fun c2 r2 h2 => absurd h2 (by simp [emptyBalances]))
  exact main c r hr

/-- Witness for C5 at the single produced record of `envBase`. -/
theorem C5_witness :
    (⟨"d", "d", JSNum.num 100, [ChainName.neutron]⟩ : BalanceRecord) ∈
      ((trackBalances "d" envBase) ChainName.neutron).getD [] ∧
    ([ChainName.neutron] : List ChainName).getLast? = some ChainName.neutron := by
  have hmem : (⟨"d", "d", JSNum.num 100, [ChainName.neutron]⟩ : BalanceRecord) ∈
      ((trackBalances "d" envBase) ChainName.neutron).getD [] := by
    rw [tb_envBase]
    simp [pushRecord, emptyBalances]
  exact ⟨hmem, C5_record_on_final_chain envBase "d" ChainName.neutron _ hmem⟩

/- ## Address translation -/

/-- Decoded bech32 address: human-readable part (the source destructures it
as a field named after the address part in question) and payload bytes. -/
structure Bech32Data where
  hrp : String
  data : List Nat
deriving DecidableEq, Repr

/-- Decoding failure of a malformed address. -/
inductive DecodingError where
  | malformed
deriving DecidableEq, Repr

/-- Interface of the bech32 encoding library used by the source — an
external dependency, not part of `src/`.  Decoding yields the
human-readable part and payload bytes, or fails on a malformed address;
encoding renders payload bytes under a given human-readable part. -/
structure Bech32Codec where
  fromBech32 : String → Except DecodingError Bech32Data
  toBech32 : String → List Nat → String

/-- Modelled from the spec: the round-trip contract of the bech32 library
(§4.2 of the spec; the library implementation is outside `src/`) —
re-encoding a successfully decoded address under its own human-readable
part reproduces the address exactly. -/
def RoundTrips (lib : Bech32Codec) : Prop :=
  ∀ (a p : String) (d : List Nat),
    lib.fromBech32 a = .ok ⟨p, d⟩ → lib.toBech32 p d = a

/-- Models `convertAddressPrefix` of the source (shortened Lean name): a
conversion targeting `terra` returns the hardcoded literal before any
decoding; any other target decodes the address and re-encodes its payload
under the new target. -/
def convertAddress (lib : Bech32Codec) (address newPre : String) :
    Except DecodingError String :=
  if newPre = "terra" then
    .ok "terra1w7mtx2g478kkhs6pgynpcjpt6aw4930q34j36v"
  else
    match lib.fromBech32 address with
    | .error e => .error e
    | .ok r => .ok (lib.toBech32 newPre r.data)

/-- C8: for every address that the library decodes, with human-readable part
`p ≠ terra`, converting the address to its own original part reproduces it
exactly (given the library round-trip contract); the documented terra
override is the only exception. -/
theorem C8_roundtrip (lib : Bech32Codec) (hrt : RoundTrips lib)
    (a p : String) (d : List Nat)
    (hdec : lib.fromBech32 a = .ok ⟨p, d⟩) (hp : p ≠ "terra") :
    convertAddress lib a p = .ok a := by
  unfold convertAddress
  rw [if_neg hp, hdec]
  show Except.ok (lib.toBech32 p d) = Except.ok a
  rw [hrt a p d hdec]

/-- A miniature codec with a one-address domain, used to witness C8. -/
def toyCodec : Bech32Codec where
  fromBech32 s :=
    if s = "cosmos1qqqsyqcyq5rqwzqfpg9scrgwpugpzysn" then
      .ok ⟨"cosmos", [0, 0, 0, 0]⟩
    else .error .malformed
  toBech32 p d :=
    if p = "cosmos" ∧ d = [0, 0, 0, 0] then
      "cosmos1qqqsyqcyq5rqwzqfpg9scrgwpugpzysn"
    else ""

/-- The miniature codec satisfies the round-trip contract. -/
theorem toyCodec_roundtrips : RoundTrips toyCodec := by
  intro a p d h
  simp only [toyCodec] at h ⊢
  by_cases ha : a = "cosmos1qqqsyqcyq5rqwzqfpg9scrgwpugpzysn"
  · subst ha
    rw [if_pos rfl] at h
    injection h with h2
    cases h2
    rw [if_pos ⟨rfl, rfl⟩]
  · rw [if_neg ha] at h
    simp at h

/-- Witness for C8 at the miniature codec's one address. -/
theorem C8_witness :
    RoundTrips toyCodec ∧
    toyCodec.fromBech32 "cosmos1qqqsyqcyq5rqwzqfpg9scrgwpugpzysn" =
      .ok ⟨"cosmos", [0, 0, 0, 0]⟩ ∧
    ("cosmos" : String) ≠ "terra" ∧
    convertAddress toyCodec "cosmos1qqqsyqcyq5rqwzqfpg9scrgwpugpzysn" "cosmos" =
      .ok "cosmos1qqqsyqcyq5rqwzqfpg9scrgwpugpzysn" :=
  ⟨toyCodec_roundtrips, rfl, by decide,
   C8_roundtrip toyCodec toyCodec_roundtrips
     "cosmos1qqqsyqcyq5rqwzqfpg9scrgwpugpzysn" "cosmos" [0, 0, 0, 0] rfl
     (by decide)⟩

/-- C10: conversion targeting the terra override returns the fixed literal
for every input string — even one no codec could decode — so it can never
raise a decoding error. -/
theorem C10_terra_fixed (lib : Bech32Codec) (a : String) :
    convertAddress lib a "terra" =
      .ok "terra1w7mtx2g478kkhs6pgynpcjpt6aw4930q34j36v" := by
  unfold convertAddress
  rw [if_pos rfl]
